import Mathlib

/-!
A shallow embedding of microactor's transport stack
(`microactor/utils/transports.py`), the selecting reactor's registration
maps (`microactor/reactors/selecting.py`) and the file subsystem's mode
handling (`microactor/reactors/posix/subsystems/files.py`), together with
theorems settling the specification's claims about them.

Bytes are modelled as `Nat`, byte strings as `List Nat`.  The inner (raw)
transport underneath an adapter is modelled as a script of events: each
`read` call consumes bytes from the head chunk; an exhausted script is EOF
(the zero-length read of the transport contract); a `closed` event stands
for an inner transport that raises `TransportClosed` on every operation.
Fallible operations return `Option`/`Except`; `none`/`.error` model a
Python exception propagating to the caller.
-/

deriving instance DecidableEq for Except

/-- One scripted behaviour of the raw inner transport: either a chunk of
bytes the next reads will deliver, or a transport that is closed and
raises `TransportClosed` from now on. -/
inductive RawEvent where
  | chunk (data : List Nat) : RawEvent
  | closed : RawEvent
deriving DecidableEq, Repr

/-- A scripted event is well formed when it is a nonempty chunk (an empty
chunk would spuriously signal EOF, and `closed` raises). -/
def RawEvent.ok : RawEvent → Bool
  | .chunk c => !c.isEmpty
  | .closed => false

/-- Well-formed script: every event is a nonempty chunk. -/
def wfEv (evs : List RawEvent) : Prop := evs.all RawEvent.ok = true

/-- All the bytes a well-formed script will ever deliver. -/
def eventBytes : List RawEvent → List Nat
  | [] => []
  | .chunk c :: rest => c ++ eventBytes rest
  | .closed :: rest => eventBytes rest

/-- One `read(count)` on the raw inner transport.  `none` models a raised
`TransportClosed`; `some []` is EOF; otherwise up to `count` bytes are
taken from the head chunk (a short read when the chunk is short), per the
base transport contract that `read` returns at most `count` bytes and a
zero-length result only at EOF.  A negative `count` means "read all
available", here: the whole head chunk. -/
def rawRead (count : Int) (evs : List RawEvent) : Option (List Nat) × List RawEvent :=
  match evs with
  | [] => (some [], [])
  | .closed :: rest => (none, .closed :: rest)
  | .chunk c :: rest =>
    if count < 0 then (some c, rest)
    else
      let t := c.take count.toNat
      let d := c.drop count.toNat
      (some t, if d = [] then rest else .chunk d :: rest)

/-- Read-side state of `BufferedTransport`: the read buffer `_rbuf`, the
target size `_rbufsize`, and the scripted inner transport. -/
structure BufT where
  rbuf : List Nat
  rbufsize : Nat
  inner : List RawEvent
deriving DecidableEq, Repr

/-- Well-formed buffered state: well-formed inner script and a positive
read-buffer target (the constructor default is 16000). -/
def wfB (s : BufT) : Prop := wfEv s.inner ∧ 0 < s.rbufsize

instance (evs : List RawEvent) : Decidable (wfEv evs) :=
  decidable_of_iff (evs.all RawEvent.ok = true) Iff.rfl

instance (s : BufT) : Decidable (wfB s) :=
  decidable_of_iff (wfEv s.inner ∧ 0 < s.rbufsize) Iff.rfl

/-- All bytes still observable through the buffered transport: the read
buffer followed by whatever the inner script will deliver. -/
def avail (s : BufT) : List Nat := s.rbuf ++ eventBytes s.inner

/-- `BufferedTransport._fill_rbuf(count)`: when `count > 0`, performs one
inner read of up to `count` bytes (the source's `while` loop always exits
after the first read: it breaks on a short read and its remaining count
reaches zero on a full one); `TransportClosed` from the inner read is
caught and treated like an empty read, and an empty read reports EOF
(`true`); otherwise the data is appended to `_rbuf` and `false` is
returned. -/
def fillRbuf (count : Int) (s : BufT) : Bool × BufT :=
  if count ≤ 0 then (false, s)
  else
    match rawRead count s.inner with
    | (none, inner') => (true, { s with inner := inner' })
    | (some data, inner') =>
      if data = [] then (true, { s with inner := inner' })
      else (false, { s with rbuf := s.rbuf ++ data, inner := inner' })

/-- `BufferedTransport.read(count)` for `count ≥ 0`: if the buffer holds
fewer than `count` bytes, fill it once with up to
`_rbufsize - len(_rbuf)` bytes, then return the first `count` buffered
bytes and advance the buffer. -/
def breadPos (count : Nat) (s : BufT) : List Nat × BufT :=
  let s₁ := if s.rbuf.length < count then
      (fillRbuf ((s.rbufsize : Int) - (s.rbuf.length : Int)) s).2
    else s
  (s₁.rbuf.take count, { s₁ with rbuf := s₁.rbuf.drop count })

/-- `BufferedTransport.read_all`: the current buffer followed by inner
reads until an empty read.  The source reads in bounded pieces whose
concatenation is exactly the scripted chunks, consumed here one chunk per
step; an inner `TransportClosed` is not caught and propagates (`none`). -/
def breadAllAux : List RawEvent → Option (List Nat × List RawEvent)
  | [] => some ([], [])
  | .closed :: _ => none
  | .chunk c :: rest =>
    if c = [] then some ([], rest)
    else
      match breadAllAux rest with
      | none => none
      | some (tail, evs') => some (c ++ tail, evs')

/-- `BufferedTransport.read_all()` over the buffered state. -/
def breadAll (s : BufT) : Option (List Nat × BufT) :=
  match breadAllAux s.inner with
  | none => none
  | some (tail, evs') => some (s.rbuf ++ tail, { s with rbuf := [], inner := evs' })

/-- `BufferedTransport.read(count)`: a negative count delegates to
`read_all` (which can raise, hence `Option`); a nonnegative count never
raises. -/
def bread (count : Int) (s : BufT) : Option (List Nat × BufT) :=
  if count < 0 then breadAll s else some (breadPos count.toNat s)

/-- The loop of `BufferedTransport.read_exactly`: keep reading until
`count` bytes are accumulated or a read comes back empty.  Structured with
explicit fuel (each productive read returns at least one byte, so
`fuel = count` suffices); returns the accumulated data, the final state
and the count still missing. -/
def readExactlyAux : Nat → Nat → BufT → List Nat × BufT × Nat
  | _, 0, s => ([], s, 0)
  | 0, count + 1, s => ([], s, count + 1)
  | fuel + 1, count + 1, s =>
    match breadPos (count + 1) s with
    | (data, s₁) =>
      if data = [] then ([], s₁, count + 1)
      else
        match readExactlyAux fuel (count + 1 - data.length) s₁ with
        | (restData, s₂, rem) => (data ++ restData, s₂, rem)

/-- `BufferedTransport.read_exactly(count, raise_on_eof)`: loops reading
until `count` bytes accumulated or EOF; when `raise_on_eof` and the
stream ended short, raises `EOFError` carrying the bytes read so far
(modelled as `.error data`). -/
def readExactly (count : Nat) (raiseOnEof : Bool) (s : BufT) :
    Except (List Nat) (List Nat) × BufT :=
  match readExactlyAux count count s with
  | (data, s', rem) =>
    if raiseOnEof ∧ 0 < rem then (.error data, s') else (.ok data, s')

/-- Python's `str.find(pat, start)`: the smallest index `i ≥ start` (with a
negative `start` counted from the end and clamped at 0) where `pat` occurs
in `s`, or `-1` when there is none. -/
def pyFind (s pat : List Nat) (start : Int) : Int :=
  let eff : Nat := if start < 0 then ((s.length : Int) + start).toNat else start.toNat
  match (List.range (s.length + 1)).find?
      (fun i => decide (eff ≤ i) && ((s.drop i).take pat.length == pat)) with
  | some i => (i : Int)
  | none => -1

/-- The `for pat in patterns` loop body of `read_until`: the first pattern
in argument order that occurs in `buf` at or after `lastIndex`, with the
index where it occurs. -/
def findFirst : List (List Nat) → List Nat → Int → Option (List Nat × Nat)
  | [], _, _ => none
  | p :: ps, buf, lastIndex =>
    let i := pyFind buf p lastIndex
    if i < 0 then findFirst ps buf lastIndex else some (p, i.toNat)

/-- The `while True` loop of `BufferedTransport.read_until`, with fuel for
the recursion (`none` on exhaustion; any fuel beyond the number of inner
events plus two is enough).  A match returns immediately; otherwise on EOF
the whole buffer is returned (or `EOFError`, modelled `.error ()`, when
`raise_on_eof`); otherwise the buffer is refilled with up to `_rbufsize`
bytes and the search resumes from `len(_rbuf) - longest_pattern` computed
on the grown buffer. -/
def readUntilAux (pats : List (List Nat)) (includePat raiseOnEof : Bool)
    (longest : Nat) : Nat → Bool → Int → BufT → Option (Except Unit (List Nat) × BufT)
  | 0, _, _, _ => none
  | fuel + 1, eof, lastIndex, s =>
    match findFirst pats s.rbuf lastIndex with
    | some (p, i) =>
      some (.ok (if includePat then s.rbuf.take (i + p.length) else s.rbuf.take i),
            { s with rbuf := s.rbuf.drop (i + p.length) })
    | none =>
      if eof then
        if raiseOnEof then some (.error (), s)
        else some (.ok s.rbuf, { s with rbuf := [] })
      else
        match fillRbuf (s.rbufsize : Int) s with
        | (eof', s') =>
          readUntilAux pats includePat raiseOnEof longest fuel eof'
            ((s'.rbuf.length : Int) - (longest : Int)) s'

/-- `BufferedTransport.read_until(patterns, raise_on_eof, include_pattern)`
for a list of patterns (`longest_pattern` is their maximum length). -/
def readUntil (pats : List (List Nat)) (includePat raiseOnEof : Bool)
    (fuel : Nat) (s : BufT) : Option (Except Unit (List Nat) × BufT) :=
  readUntilAux pats includePat raiseOnEof ((pats.map List.length).foldl Nat.max 0)
    fuel false 0 s

/-- `BufferedTransport.read_line(include_newline)`: `read_until` with the
patterns `"\r\n"`, `"\r"`, `"\n"` in that order. -/
def readLine (includeNewline : Bool) (fuel : Nat) (s : BufT) :
    Option (Except Unit (List Nat) × BufT) :=
  readUntil [[13, 10], [13], [10]] includeNewline false fuel s

/-- Write-side state of `BufferedTransport`: the write buffer `_wbuf`, its
target size `_wbufsize`, and `sink`, the bytes already written through to
the inner transport. -/
structure BufW where
  wbuf : List Nat
  wbufsize : Nat
  sink : List Nat
deriving DecidableEq, Repr

/-- `BufferedTransport.write(data)`: append to the write buffer and flush
it through when its length exceeds the target. -/
def bwrite (data : List Nat) (w : BufW) : BufW :=
  let wb := w.wbuf ++ data
  if w.wbufsize < wb.length then { w with wbuf := [], sink := w.sink ++ wb }
  else { w with wbuf := wb }

/-- `BufferedTransport.flush()`: write the whole write buffer through. -/
def bflushW (w : BufW) : BufW := { w with wbuf := [], sink := w.sink ++ w.wbuf }

/-- The 4 bytes of `Struct("!L").pack(n)`: unsigned big-endian. -/
def beBytes (n : Nat) : List Nat :=
  [n / 16777216 % 256, n / 65536 % 256, n / 256 % 256, n % 256]

/-- `Struct("!L").unpack` on a 4-byte string. -/
def beDecode : List Nat → Nat
  | [a, b, c, d] => ((a * 256 + b) * 256 + c) * 256 + d
  | _ => 0

/-- `Struct("!L").pack(n)`, which raises (`none`) when `n` does not fit in
an unsigned 32-bit field. -/
def pack32 (n : Nat) : Option (List Nat) :=
  if n < 4294967296 then some (beBytes n) else none

/-- `PacketTransport.send(data, flush=True)` on the write side: pack the
length header, write header then payload through the buffered transport,
then flush. -/
def psend (data : List Nat) (w : BufW) : Option BufW :=
  match pack32 data.length with
  | none => none
  | some header => some (bflushW (bwrite data (bwrite header w)))

/-- The bytes `PacketTransport.send(data)` emits on the wire, starting
from a fresh buffered writer with the default 16000-byte target. -/
def sendWire (data : List Nat) : Option (List Nat) :=
  (psend data ⟨[], 16000, []⟩).map BufW.sink

/-- Errors `PacketTransport.recv` can raise: `PacketTooLong`, or the
`EOFError` of `read_exactly` (carrying the bytes read so far) while
reading the header or the body. -/
inductive PacketError where
  | packetTooLong : PacketError
  | eofHeader (got : List Nat) : PacketError
  | eofBody (got : List Nat) : PacketError
deriving DecidableEq, Repr

/-- `PacketTransport.recv()`: read exactly 4 header bytes, decode the
length; raise `PacketTooLong` when `max_length > 0` and the length
exceeds it; otherwise read exactly that many body bytes and return
them. -/
def precv (maxLen : Int) (s : BufT) : Except PacketError (List Nat) × BufT :=
  match readExactly 4 true s with
  | (.error d, s') => (.error (.eofHeader d), s')
  | (.ok header, s') =>
    let len := beDecode header
    if 0 < maxLen ∧ maxLen < (len : Int) then (.error .packetTooLong, s')
    else
      match readExactly len true s' with
      | (.error d, s'') => (.error (.eofBody d), s'')
      | (.ok data, s'') => (.ok data, s'')

/-- A fresh buffered reader (default 16000-byte target) over a single
scripted chunk, as a peer reading a wire byte stream. -/
def mkReader (bytes : List Nat) : BufT := ⟨[], 16000, [.chunk bytes]⟩

/-- State of `BoundTransport` on the read side: the remaining read quota
`_rlength` (`none` is the unbounded quota that disables the check) over a
buffered inner transport. -/
structure BState where
  rlength : Option Int
  inner : BufT
deriving DecidableEq, Repr

/-- `BoundTransport.read(count)`: unbounded quota passes through; a
nonpositive remaining quota returns EOF; otherwise the count is clamped
to `min(count, remaining)`, the inner buffered transport is read, and the
quota is decremented by the bytes actually read. -/
def boundRead (count : Int) (b : BState) : Option (List Nat × BState) :=
  match b.rlength with
  | none =>
    match bread count b.inner with
    | none => none
    | some (d, i) => some (d, { b with inner := i })
  | some r =>
    if r ≤ 0 then some ([], b)
    else
      match bread (min count r) b.inner with
      | none => none
      | some (d, i) => some (d, { rlength := some (r - (d.length : Int)), inner := i })

/-- The `while count > 0` loop of `BoundTransport.skip`, with fuel (each
productive read returns at least one byte, so `fuel = count` suffices):
read and discard until `count` is consumed or a read comes back empty,
returning the number of bytes actually consumed. -/
def boundSkipAux : Nat → Nat → BState → Option (Nat × BState)
  | _, 0, b => some (0, b)
  | 0, _ + 1, _ => none
  | fuel + 1, count + 1, b =>
    match boundRead ((count + 1 : Nat) : Int) b with
    | none => none
    | some (d, b₁) =>
      if d = [] then some (0, b₁)
      else
        match boundSkipAux fuel (count + 1 - d.length) b₁ with
        | none => none
        | some (n, b₂) => some (d.length + n, b₂)

/-- `BoundTransport.skip(count)`: a negative count means the remaining
read quota (0 when the quota is unbounded, where the source's loop guard
is never satisfied). -/
def boundSkip (count : Int) (b : BState) : Option (Nat × BState) :=
  let c : Int := if count < 0 then (match b.rlength with | some r => r | none => 0)
    else count
  boundSkipAux c.toNat c.toNat b

/-- A reader-side operation on a `BoundTransport`. -/
inductive BOp where
  | read (count : Int) : BOp
  | skip (count : Int) : BOp
deriving DecidableEq, Repr

/-- Run a sequence of reads and skips, accumulating the total number of
bytes consumed from the bound transport. -/
def runOps : List BOp → BState → Option (Nat × BState)
  | [], b => some (0, b)
  | .read c :: ops, b =>
    match boundRead c b with
    | none => none
    | some (d, b') =>
      match runOps ops b' with
      | none => none
      | some (n, b'') => some (d.length + n, b'')
  | .skip c :: ops, b =>
    match boundSkip c b with
    | none => none
    | some (k, b') =>
      match runOps ops b' with
      | none => none
      | some (n, b'') => some (k + n, b'')

/-- An operation whose read count is nonnegative (skip counts are always
sanitized by `skip` itself). -/
def BOp.nonneg : BOp → Prop
  | .read c => 0 ≤ c
  | .skip _ => True

/-- Modelled from the spec: the state of the incremental decoder of the
`codecs` module (not under `src/`), holding the pending bytes of an
incomplete multibyte sequence. -/
structure Decoder where
  pending : List Nat
deriving DecidableEq, Repr

/-- Modelled from the spec: `decoder.decode(raw, final)` for a two-byte
encoding.  Complete two-byte units are emitted; a trailing incomplete
sequence is held inside the decoder until the next call; a final decode
resolves and flushes everything held. -/
def decDecode (dec : Decoder) (raw : List Nat) (final : Bool) : List Nat × Decoder :=
  let all := dec.pending ++ raw
  if final then (all, ⟨[]⟩)
  else
    let n := all.length / 2 * 2
    (all.take n, ⟨all.drop n⟩)

/-- State of `CodecTransport`: the buffered inner transport and the
incremental decoder. -/
structure CodecState where
  transport : BufT
  decoder : Decoder
deriving DecidableEq, Repr

/-- The body of `CodecTransport.read` applied to the value the inner read
produced: `if raw is None` finalizes the decoder, otherwise the raw bytes
are decoded incrementally. -/
def creadBody (dec : Decoder) (raw : Option (List Nat)) : List Nat × Decoder :=
  match raw with
  | none => decDecode dec [] true
  | some bytes => decDecode dec bytes false

/-- `CodecTransport.read(count)`: read up to `count` raw bytes from the
inner transport and decode them.  The inner read yields a byte string —
the empty string at EOF — and never `None`, so the dispatch always takes
the `some` branch of `creadBody`. -/
def cread (count : Nat) (c : CodecState) : List Nat × CodecState :=
  match breadPos count c.transport with
  | (raw, t') =>
    match creadBody c.decoder (some raw) with
    | (out, dec') => (out, ⟨t', dec'⟩)

/-- An fd-to-transport registration map of the selecting reactor;
transports are identified by an id standing for Python object
identity. -/
def RMap : Type := Nat → Option Nat

/-- `SelectingReactor.register_read(transport)`: raise `ReactorError`
(`.error ()`) when the fd slot is occupied by a different transport
object, else install the transport in the slot. -/
def registerRead (m : RMap) (fd tid : Nat) : Except Unit RMap :=
  if (m fd).isSome ∧ m fd ≠ some tid then .error ()
  else .ok (fun x => if x = fd then some tid else m x)

/-- `SelectingReactor.register_write(transport)`: same check and update on
the write-side map. -/
def registerWrite (m : RMap) (fd tid : Nat) : Except Unit RMap :=
  if (m fd).isSome ∧ m fd ≠ some tid then .error ()
  else .ok (fun x => if x = fd then some tid else m x)

/-- `FilesSubsystem.open`: the capability mode string `mode2` computed
from the open mode — `'r'` when the mode contains `'r'` or `'+'`, `'w'`
when it contains `'a'` or `'+'`. -/
def openMode2 (mode : List Char) : List Char :=
  (if mode.contains 'r' || mode.contains '+' then ['r'] else []) ++
  (if mode.contains 'a' || mode.contains '+' then ['w'] else [])

/-- Modelled from the spec: `FileTransport` (not under `src/`) reports the
readable capability iff its capability mode string contains `'r'`. -/
def openReadable (mode : List Char) : Bool := (openMode2 mode).contains 'r'

/-- Modelled from the spec: `FileTransport` (not under `src/`) reports the
writable capability iff its capability mode string contains `'w'`. -/
def openWritable (mode : List Char) : Bool := (openMode2 mode).contains 'w'

lemma wfEv_cons_chunk {c : List Nat} {rest : List RawEvent}
    (h : wfEv (.chunk c :: rest)) : c ≠ [] ∧ wfEv rest := by
  simp only [wfEv, List.all_cons, RawEvent.ok, Bool.and_eq_true, Bool.not_eq_true'] at h
  exact ⟨by simpa using h.1, h.2⟩

lemma wfEv_cons_closed {rest : List RawEvent} (h : wfEv (.closed :: rest)) : False := by
  simp [wfEv, List.all_cons, RawEvent.ok] at h

lemma wfEv_chunk_cons {c : List Nat} {rest : List RawEvent}
    (hc : c ≠ []) (hr : wfEv rest) : wfEv (.chunk c :: rest) := by
  simp only [wfEv, List.all_cons, RawEvent.ok, Bool.and_eq_true, Bool.not_eq_true']
  exact ⟨by simpa using hc, hr⟩

lemma rawRead_spec {evs : List RawEvent} {count : Int}
    (hw : wfEv evs) (hc : 0 < count) :
    ∃ d evs', rawRead count evs = (some d, evs') ∧
      d ++ eventBytes evs' = eventBytes evs ∧ wfEv evs' ∧
      d.length ≤ count.toNat ∧ (eventBytes evs ≠ [] → d ≠ []) := by
  cases evs with
  | nil =>
    exact ⟨[], [], rfl, rfl, hw, by simp, by simp [eventBytes]⟩
  | cons e rest =>
    cases e with
    | closed => exact absurd hw (fun h => wfEv_cons_closed h)
    | chunk c =>
      obtain ⟨hcne, hwr⟩ := wfEv_cons_chunk hw
      have hk : 1 ≤ count.toNat := by omega
      have hneg : ¬ count < 0 := by omega
      have htake : c.take count.toNat ≠ [] := by
        rw [Ne, List.take_eq_nil_iff]
        push_neg
        exact ⟨by omega, hcne⟩
      by_cases hd : c.drop count.toNat = []
      · have hcall : c.take count.toNat = c := by
          have := List.take_append_drop count.toNat c
          rw [hd, List.append_nil] at this
          exact this
        refine ⟨c.take count.toNat, rest, ?_, ?_, hwr, by simp, fun _ => htake⟩
        · simp [rawRead, hneg, hd]
        · rw [hcall]; simp [eventBytes]
      · refine ⟨c.take count.toNat, .chunk (c.drop count.toNat) :: rest, ?_, ?_,
          wfEv_chunk_cons hd hwr, by simp, fun _ => htake⟩
        · simp [rawRead, hneg, hd]
        · simp only [eventBytes, ← List.append_assoc, List.take_append_drop]

lemma fillRbuf_spec {s : BufT} {count : Int} (hw : wfB s) :
    avail (fillRbuf count s).2 = avail s ∧ wfB (fillRbuf count s).2 ∧
    (fillRbuf count s).2.rbufsize = s.rbufsize ∧
    (∃ ext, (fillRbuf count s).2.rbuf = s.rbuf ++ ext) ∧
    (0 < count → eventBytes s.inner ≠ [] →
      s.rbuf.length < (fillRbuf count s).2.rbuf.length) := by
  by_cases h0 : count ≤ 0
  · have hns : fillRbuf count s = (false, s) := by simp [fillRbuf, h0]
    rw [hns]
    exact ⟨rfl, hw, rfl, ⟨[], by simp⟩, fun hc => absurd h0 (by omega)⟩
  · have hc : 0 < count := by omega
    obtain ⟨d, evs', hr, hb, hw', hlen, hne⟩ := rawRead_spec hw.1 hc
    by_cases hd : d = []
    · have hby : eventBytes s.inner = [] := by
        by_contra hbne
        exact hne hbne hd
      have hns : fillRbuf count s = (true, { s with inner := evs' }) := by
        simp [fillRbuf, h0, hr, hd]
      rw [hns]
      subst hd
      simp only [List.nil_append] at hb
      refine ⟨?_, ⟨hw', hw.2⟩, rfl, ⟨[], by simp⟩, fun _ hbne => absurd hby hbne⟩
      simp [avail, hb]
    · have hns : fillRbuf count s =
          (false, { s with rbuf := s.rbuf ++ d, inner := evs' }) := by
        simp [fillRbuf, h0, hr, hd]
      rw [hns]
      refine ⟨?_, ⟨hw', hw.2⟩, rfl, ⟨d, rfl⟩, fun _ _ => ?_⟩
      · simp only [avail]
        rw [List.append_assoc, hb]
      · simp only [List.length_append]
        have := List.length_pos.mpr hd
        omega

lemma breadPos_spec {s : BufT} (count : Nat) (hw : wfB s) :
    (breadPos count s).1 ++ avail (breadPos count s).2 = avail s ∧
    (breadPos count s).1.length ≤ count ∧
    wfB (breadPos count s).2 ∧
    (breadPos count s).2.rbufsize = s.rbufsize ∧
    (0 < count → avail s ≠ [] → (breadPos count s).1 ≠ []) := by
  by_cases hfill : s.rbuf.length < count
  · obtain ⟨hav, hw₁, hsz, ⟨ext, hext⟩, hgrow⟩ :=
      @fillRbuf_spec s ((s.rbufsize : Int) - (s.rbuf.length : Int)) hw
    set s₁ := (fillRbuf ((s.rbufsize : Int) - (s.rbuf.length : Int)) s).2 with hs₁
    have hbp : breadPos count s =
        (s₁.rbuf.take count, { s₁ with rbuf := s₁.rbuf.drop count }) := by
      simp [breadPos, hfill, hs₁]
    rw [hbp]
    refine ⟨?_, by rw [List.length_take]; omega, ⟨hw₁.1, hw₁.2⟩, hsz, ?_⟩
    · simp only [avail] at hav ⊢
      rw [← List.append_assoc, List.take_append_drop]
      exact hav
    · intro hcpos havne
      rw [Ne, List.take_eq_nil_iff]
      push_neg
      refine ⟨by omega, ?_⟩
      by_cases hrb : s.rbuf = []
      · have hbyne : eventBytes s.inner ≠ [] := by
          simpa [avail, hrb] using havne
        have hcnt : 0 < (s.rbufsize : Int) - (s.rbuf.length : Int) := by
          have h2 := hw.2
          rw [hrb]
          simp
          omega
        have hlt := hgrow hcnt hbyne
        rw [hrb] at hlt
        simp at hlt
        exact List.length_pos.mp hlt
      · rw [hext]
        simp [hrb]
  · have hbp : breadPos count s =
        (s.rbuf.take count, { s with rbuf := s.rbuf.drop count }) := by
      simp [breadPos, hfill]
    rw [hbp]
    refine ⟨?_, by rw [List.length_take]; omega, ⟨hw.1, hw.2⟩, rfl, ?_⟩
    · simp only [avail]
      rw [← List.append_assoc, List.take_append_drop]
    · intro hcpos havne
      rw [Ne, List.take_eq_nil_iff]
      push_neg
      refine ⟨by omega, ?_⟩
      rw [← List.length_pos]
      omega

lemma readExactlyAux_spec :
    ∀ fuel count (s : BufT), count ≤ fuel → wfB s →
    (readExactlyAux fuel count s).1 = (avail s).take count ∧
    avail (readExactlyAux fuel count s).2.1 = (avail s).drop count ∧
    (readExactlyAux fuel count s).2.2 = count - (avail s).length ∧
    wfB (readExactlyAux fuel count s).2.1 := by
  intro fuel
  induction fuel with
  | zero =>
    intro count s hcf hw
    have h0 : count = 0 := by omega
    subst h0
    simpa [readExactlyAux] using hw
  | succ fuel ih =>
    intro count s hcf hw
    match count with
    | 0 => simpa [readExactlyAux] using hw
    | count + 1 =>
      obtain ⟨hpre, hlen, hw₁, _, hprog⟩ := breadPos_spec (s := s) (count + 1) hw
      rcases hbp : breadPos (count + 1) s with ⟨d, s₁⟩
      rw [hbp] at hpre hlen hw₁ hprog
      simp only at hpre hlen hw₁ hprog
      by_cases hd : d = []
      · have hempty : avail s = [] := by
          by_contra hne
          exact hprog (by omega) hne hd
        subst hd
        simp only [List.nil_append] at hpre
        have hres : readExactlyAux (fuel + 1) (count + 1) s = ([], s₁, count + 1) := by
          simp [readExactlyAux, hbp]
        rw [hres]
        exact ⟨by simp [hempty], by simp [hempty, hpre], by simp [hempty], hw₁⟩
      · have hdpos : 0 < d.length := List.length_pos.mpr hd
        have hd_take : d = (avail s).take d.length := by
          rw [← hpre, List.take_left]
        have hs₁_drop : avail s₁ = (avail s).drop d.length := by
          rw [← hpre, List.drop_left]
        have hle : d.length ≤ (avail s).length := by
          rw [← hpre, List.length_append]
          omega
        have hcf' : count + 1 - d.length ≤ fuel := by omega
        obtain ⟨ih1, ih2, ih3, ih4⟩ := ih (count + 1 - d.length) s₁ hcf' hw₁
        have hres : readExactlyAux (fuel + 1) (count + 1) s =
            (d ++ (readExactlyAux fuel (count + 1 - d.length) s₁).1,
             (readExactlyAux fuel (count + 1 - d.length) s₁).2.1,
             (readExactlyAux fuel (count + 1 - d.length) s₁).2.2) := by
          rw [readExactlyAux, hbp]
          simp only [hd, if_false]
        have hsum : count + 1 = d.length + (count + 1 - d.length) := by omega
        have htake : (avail s).take (count + 1) =
            d ++ (avail s₁).take (count + 1 - d.length) := by
          conv_lhs => rw [hsum]
          rw [List.take_add, ← hd_take, ← hs₁_drop]
        have hdrop : (avail s).drop (count + 1) = (avail s₁).drop (count + 1 - d.length) := by
          rw [hs₁_drop, List.drop_drop, Nat.add_sub_cancel' (by omega : d.length ≤ count + 1)]
        have hlen₁ : (avail s₁).length = (avail s).length - d.length := by
          rw [hs₁_drop, List.length_drop]
        rw [hres]
        refine ⟨?_, ?_, ?_, ih4⟩
        · rw [ih1, htake]
        · rw [ih2, hdrop]
        · rw [ih3, hlen₁]
          omega

/-- Outcome of `read_exactly(n, raise_on_eof=True)`: on a stream holding
at least `n` bytes it returns exactly the first `n` bytes and the stream
is left positioned at byte `n`; on a shorter stream it raises `EOFError`
carrying everything the stream held. -/
lemma readExactly_spec {s : BufT} (n : Nat) (hw : wfB s) :
    (n ≤ (avail s).length →
      (readExactly n true s).1 = .ok ((avail s).take n) ∧
      avail (readExactly n true s).2 = (avail s).drop n ∧
      wfB (readExactly n true s).2) ∧
    ((avail s).length < n →
      (readExactly n true s).1 = .error (avail s) ∧
      avail (readExactly n true s).2 = [] ∧
      wfB (readExactly n true s).2) := by
  obtain ⟨h1, h2, h3, h4⟩ := readExactlyAux_spec n n s (le_refl n) hw
  rcases haux : readExactlyAux n n s with ⟨data, s', rem⟩
  rw [haux] at h1 h2 h3 h4
  simp only at h1 h2 h3 h4
  constructor
  · intro hge
    have hrem : rem = 0 := by omega
    have hres : readExactly n true s = (.ok data, s') := by
      simp [readExactly, haux, hrem]
    rw [hres]
    exact ⟨by simp [h1], by simpa using h2, h4⟩
  · intro hlt
    have hrem : 0 < rem := by omega
    have hres : readExactly n true s = (.error data, s') := by
      simp [readExactly, haux, hrem]
    rw [hres]
    refine ⟨?_, ?_, h4⟩
    · simp only [h1]
      rw [List.take_of_length_le (by omega)]
    · rw [h2, List.drop_of_length_le (by omega)]

lemma beBytes_length (n : Nat) : (beBytes n).length = 4 := by
  simp [beBytes]

lemma beDecode_beBytes {n : Nat} (h : n < 4294967296) : beDecode (beBytes n) = n := by
  simp only [beBytes, beDecode]
  omega

/-- Behaviour of `PacketTransport.recv` on a stream whose head is a
well-formed frame: the 4 header bytes are consumed first; `PacketTooLong`
fires exactly when `0 < max_length < L`, with the body still unconsumed;
otherwise exactly the `L` body bytes are consumed and returned. -/
lemma precv_spec {maxLen : Int} {L : Nat} {body rest : List Nat} {s : BufT}
    (hw : wfB s) (hL : L < 4294967296) (hb : body.length = L)
    (ha : avail s = beBytes L ++ (body ++ rest)) :
    ((0 < maxLen ∧ maxLen < (L : Int)) →
      (precv maxLen s).1 = .error .packetTooLong ∧
      avail (precv maxLen s).2 = body ++ rest) ∧
    (¬(0 < maxLen ∧ maxLen < (L : Int)) →
      (precv maxLen s).1 = .ok body ∧ avail (precv maxLen s).2 = rest) := by
  have hlen4 : 4 ≤ (avail s).length := by
    rw [ha, List.length_append, beBytes_length]
    omega
  obtain ⟨hok, _⟩ := readExactly_spec (s := s) 4 hw
  obtain ⟨hh1, hh2, hh3⟩ := hok hlen4
  have htake4 : (avail s).take 4 = beBytes L := by
    rw [ha, ← beBytes_length L, List.take_left]
  have hdrop4 : (avail s).drop 4 = body ++ rest := by
    rw [ha, ← beBytes_length L, List.drop_left]
  rcases hre : readExactly 4 true s with ⟨hdr, s₁⟩
  rw [hre] at hh1 hh2 hh3
  simp only at hh1 hh2 hh3
  rw [htake4] at hh1
  rw [hdrop4] at hh2
  have hdec : beDecode (beBytes L) = L := beDecode_beBytes hL
  constructor
  · intro hcond
    have hres : precv maxLen s = (.error .packetTooLong, s₁) := by
      simp only [precv, hre, hh1]
      rw [hdec]
      simp [hcond.1, hcond.2]
    rw [hres]
    exact ⟨rfl, hh2⟩
  · intro hcond
    have hlenL : L ≤ (avail s₁).length := by
      rw [hh2, List.length_append]
      omega
    obtain ⟨hok₁, _⟩ := readExactly_spec (s := s₁) L hh3
    obtain ⟨hb1, hb2, _⟩ := hok₁ hlenL
    have htakeL : (avail s₁).take L = body := by
      rw [hh2, ← hb, List.take_left]
    have hdropL : (avail s₁).drop L = rest := by
      rw [hh2, ← hb, List.drop_left]
    rcases hrb : readExactly L true s₁ with ⟨bres, s₂⟩
    rw [hrb] at hb1 hb2
    simp only at hb1 hb2
    rw [htakeL] at hb1
    rw [hdropL] at hb2
    have hres : precv maxLen s = (.ok body, s₂) := by
      simp only [precv, hre, hh1]
      rw [hdec]
      rw [if_neg hcond, hrb, hb1]
    rw [hres]
    exact ⟨rfl, hb2⟩

lemma avail_mkReader (bytes : List Nat) : avail (mkReader bytes) = bytes := by
  simp [avail, mkReader, eventBytes]

lemma wfB_mkReader {bytes : List Nat} (h : bytes ≠ []) : wfB (mkReader bytes) := by
  refine ⟨?_, by simp [mkReader]⟩
  simp only [mkReader, wfEv, List.all_cons, List.all_nil, RawEvent.ok,
    Bool.and_true, Bool.not_eq_true']
  simpa using h

/-- The wire bytes of `PacketTransport.send(p)` from a fresh buffered
writer: the 4-byte big-endian length header followed by the payload. -/
lemma sendWire_eq {p : List Nat} (hp : p.length < 4294967296) :
    sendWire p = some (beBytes p.length ++ p) := by
  have hpk : pack32 p.length = some (beBytes p.length) := by
    simp [pack32, hp]
  have h4 : (beBytes p.length).length = 4 := beBytes_length _
  have hw1 : bwrite (beBytes p.length) ⟨[], 16000, []⟩ =
      ⟨beBytes p.length, 16000, []⟩ := by
    simp [bwrite, h4]
  simp only [sendWire, psend, hpk, hw1]
  by_cases hfl : 16000 < (beBytes p.length ++ p).length
  · have hfl' : 16000 < (beBytes p.length).length + p.length := by
      simpa [List.length_append] using hfl
    have hbw : bwrite p ⟨beBytes p.length, 16000, []⟩ =
        ⟨[], 16000, beBytes p.length ++ p⟩ := by
      simp [bwrite, hfl']
    rw [hbw]
    simp [bflushW]
  · have hfl' : ¬ 16000 < (beBytes p.length).length + p.length := by
      simpa [List.length_append] using hfl
    have hbw : bwrite p ⟨beBytes p.length, 16000, []⟩ =
        ⟨beBytes p.length ++ p, 16000, []⟩ := by
      simp [bwrite, hfl']
    rw [hbw]
    simp [bflushW]

lemma breadPos_length_le (count : Nat) (s : BufT) :
    ((breadPos count s).1).length ≤ count := by
  unfold breadPos
  dsimp only
  rw [List.length_take]
  omega

lemma bread_pos_some {count : Int} (hc : 0 ≤ count) (s : BufT) :
    bread count s = some (breadPos count.toNat s) := by
  unfold bread
  rw [if_neg (by omega : ¬ count < 0)]

lemma boundRead_quota {b : BState} {r count : Int} {d : List Nat} {b' : BState}
    (hr : b.rlength = some r) (hr0 : 0 ≤ r) (hc : 0 ≤ count)
    (hres : boundRead count b = some (d, b')) :
    b'.rlength = some (r - (d.length : Int)) ∧ (d.length : Int) ≤ r ∧
    (d.length : Int) ≤ count := by
  unfold boundRead at hres
  rw [hr] at hres
  dsimp only at hres
  by_cases h0 : r ≤ 0
  · rw [if_pos h0] at hres
    injection hres with h
    injection h with h1 h2
    subst h1
    subst h2
    refine ⟨by simpa using hr, by simpa using hr0, by simpa using hc⟩
  · rw [if_neg h0] at hres
    have hmin : 0 ≤ min count r := le_min hc (by omega)
    rw [bread_pos_some hmin] at hres
    dsimp only at hres
    injection hres with h
    injection h with h1 h2
    have hlen := breadPos_length_le (min count r).toNat b.inner
    have hcast : ((min count r).toNat : Int) = min count r := by omega
    subst h1
    subst h2
    refine ⟨rfl, by omega, by omega⟩

lemma boundSkipAux_quota :
    ∀ fuel count (b : BState) (r : Int) (k : Nat) (b' : BState),
      b.rlength = some r → 0 ≤ r → boundSkipAux fuel count b = some (k, b') →
      b'.rlength = some (r - (k : Int)) ∧ (k : Int) ≤ r := by
  intro fuel
  induction fuel with
  | zero =>
    intro count b r k b' hr hr0 hres
    match count with
    | 0 =>
      simp only [boundSkipAux] at hres
      injection hres with h
      injection h with h1 h2
      subst h1
      subst h2
      exact ⟨by simpa using hr, by omega⟩
    | count + 1 => simp [boundSkipAux] at hres
  | succ fuel ih =>
    intro count b r k b' hr hr0 hres
    match count with
    | 0 =>
      simp only [boundSkipAux] at hres
      injection hres with h
      injection h with h1 h2
      subst h1
      subst h2
      exact ⟨by simpa using hr, by omega⟩
    | count + 1 =>
      rw [boundSkipAux] at hres
      rcases hbr : boundRead ((count + 1 : Nat) : Int) b with _ | ⟨d, b₁⟩
      · rw [hbr] at hres
        exact Option.noConfusion hres
      · rw [hbr] at hres
        dsimp only at hres
        obtain ⟨hq1, hq2, _⟩ := boundRead_quota hr hr0 (by omega) hbr
        by_cases hd : d = []
        · rw [if_pos hd] at hres
          injection hres with h
          injection h with h1 h2
          subst h1
          subst h2
          subst hd
          refine ⟨by simpa using hq1, by omega⟩
        · rw [if_neg hd] at hres
          rcases hsk : boundSkipAux fuel (count + 1 - d.length) b₁ with _ | ⟨n, b₂⟩
          · rw [hsk] at hres
            exact Option.noConfusion hres
          · rw [hsk] at hres
            dsimp only at hres
            injection hres with h
            injection h with h1 h2
            subst h1
            subst h2
            have hr₁0 : 0 ≤ r - (d.length : Int) := by omega
            obtain ⟨hs1, hs2⟩ := ih (count + 1 - d.length) b₁ (r - d.length) n b₂ hq1 hr₁0 hsk
            constructor
            · rw [hs1]
              congr 1
              push_cast
              ring
            · push_cast
              omega

lemma boundSkip_quota {b : BState} {count : Int} {r : Int} {k : Nat} {b' : BState}
    (hr : b.rlength = some r) (hr0 : 0 ≤ r)
    (hres : boundSkip count b = some (k, b')) :
    b'.rlength = some (r - (k : Int)) ∧ (k : Int) ≤ r := by
  unfold boundSkip at hres
  exact boundSkipAux_quota _ _ b r k b' hr hr0 hres

lemma runOps_quota :
    ∀ ops (b : BState) (r : Int) (n : Nat) (b' : BState),
      b.rlength = some r → 0 ≤ r → (∀ op ∈ ops, BOp.nonneg op) →
      runOps ops b = some (n, b') →
      b'.rlength = some (r - (n : Int)) ∧ (n : Int) ≤ r := by
  intro ops
  induction ops with
  | nil =>
    intro b r n b' hr hr0 _ hres
    simp only [runOps] at hres
    injection hres with h
    injection h with h1 h2
    subst h1
    subst h2
    exact ⟨by simpa using hr, by omega⟩
  | cons op ops ih =>
    intro b r n b' hr hr0 hops hres
    have hopsTail : ∀ o ∈ ops, BOp.nonneg o :=
      fun o ho => hops o (List.mem_cons_of_mem _ ho)
    cases op with
    | read c =>
      have hc : (0 : Int) ≤ c := hops _ (List.mem_cons_self _ _)
      rw [runOps] at hres
      rcases hbr : boundRead c b with _ | ⟨d, b₁⟩
      · rw [hbr] at hres
        exact Option.noConfusion hres
      · rw [hbr] at hres
        dsimp only at hres
        obtain ⟨hq1, hq2, _⟩ := boundRead_quota hr hr0 hc hbr
        rcases hro : runOps ops b₁ with _ | ⟨m, b₂⟩
        · rw [hro] at hres
          exact Option.noConfusion hres
        · rw [hro] at hres
          dsimp only at hres
          injection hres with h
          injection h with h1 h2
          subst h1
          subst h2
          have hr₁0 : 0 ≤ r - (d.length : Int) := by omega
          obtain ⟨hs1, hs2⟩ := ih b₁ (r - d.length) m b₂ hq1 hr₁0 hopsTail hro
          constructor
          · rw [hs1]
            congr 1
            push_cast
            ring
          · push_cast
            omega
    | skip c =>
      rw [runOps] at hres
      rcases hbs : boundSkip c b with _ | ⟨d, b₁⟩
      · rw [hbs] at hres
        exact Option.noConfusion hres
      · rw [hbs] at hres
        dsimp only at hres
        obtain ⟨hq1, hq2⟩ := boundSkip_quota hr hr0 hbs
        rcases hro : runOps ops b₁ with _ | ⟨m, b₂⟩
        · rw [hro] at hres
          exact Option.noConfusion hres
        · rw [hro] at hres
          dsimp only at hres
          injection hres with h
          injection h with h1 h2
          subst h1
          subst h2
          have hr₁0 : 0 ≤ r - (d : Int) := by omega
          obtain ⟨hs1, hs2⟩ := ih b₁ (r - d) m b₂ hq1 hr₁0 hopsTail hro
          constructor
          · rw [hs1]
            congr 1
            push_cast
            ring
          · push_cast
            omega

/-- C1: for every byte string `p` that fits the 4-byte length field, and
any receiver `max_length` that does not reject it, the bytes emitted by
`PacketTransport.send(p)` are the 4-byte unsigned big-endian header equal
to `len(p)` followed by the payload, and `PacketTransport.recv()` on a
peer reading that byte stream yields exactly `p`. -/
theorem C1_round_trip (p : List Nat) (maxLen : Int)
    (hp : p.length < 4294967296)
    (hm : maxLen ≤ 0 ∨ (p.length : Int) ≤ maxLen) :
    sendWire p = some (beBytes p.length ++ p) ∧
    (precv maxLen (mkReader (beBytes p.length ++ p))).1 = .ok p := by
  refine ⟨sendWire_eq hp, ?_⟩
  have hne : beBytes p.length ++ p ≠ [] := by
    simp [beBytes]
  have hw := wfB_mkReader hne
  have ha : avail (mkReader (beBytes p.length ++ p)) =
      beBytes p.length ++ (p ++ []) := by
    rw [avail_mkReader]
    simp
  obtain ⟨_, hok⟩ := @precv_spec maxLen p.length p [] (mkReader (beBytes p.length ++ p)) hw hp rfl ha
  have hcond : ¬(0 < maxLen ∧ maxLen < (p.length : Int)) := by
    rcases hm with h | h
    · intro hcontra
      omega
    · intro hcontra
      omega
  exact (hok hcond).1

theorem C1_round_trip_witness :
    sendWire [104, 101, 108, 108, 111] = some [0, 0, 0, 5, 104, 101, 108, 108, 111] ∧
    (sendWire [104, 101, 108, 108, 111] =
      some (beBytes (List.length [104, 101, 108, 108, 111]) ++ [104, 101, 108, 108, 111]) ∧
    (precv 1048576 (mkReader (beBytes (List.length [104, 101, 108, 108, 111]) ++
      [104, 101, 108, 108, 111]))).1 = .ok [104, 101, 108, 108, 111]) :=
  ⟨by decide, C1_round_trip [104, 101, 108, 108, 111] 1048576 (by decide) (Or.inr (by decide))⟩

/-- C2: the claim says `read_until("XXYY", include_pattern=false)` over
inner chunks `"abXX"`, `"YYcd"` returns `"ab"` and leaves `"cd"`
buffered, the resumed search never skipping a straddling match.  The code
resumes from `len(_rbuf) - longest_pattern` computed on the *grown*
buffer, which here resumes at index 4 and skips the match at index 2: the
loop never matches, hits EOF and returns the whole buffered stream. -/
theorem C2_straddle_eval :
    readUntil [[88, 88, 89, 89]] false false 10
      ⟨[], 16000, [.chunk [97, 98, 88, 88], .chunk [89, 89, 99, 100]]⟩ =
      some (.ok [97, 98, 88, 88, 89, 89, 99, 100], ⟨[], 16000, []⟩) ∧
    ([97, 98, 88, 88, 89, 89, 99, 100] : List Nat) ≠ [97, 98] := by decide

/-- C3 counterexample: on a buffer `"a\nb\rc"`,
`read_line(include_newline=false)` returns `"a\nb"` — the `"\r"` pattern
is tried before `"\n"` and wins although `"\n"` occurs earlier — not the
`"a"` the claim (earliest occurrence wins) requires. -/
theorem C3_counterexample :
    readLine false 5 ⟨[97, 10, 98, 13, 99], 16000, []⟩ =
      some (.ok [97, 10, 98], ⟨[99], 16000, []⟩) ∧
    ([97, 10, 98] : List Nat) ≠ [97] := by decide

/-- C3 (amended): `read_until` scans the patterns in argument order and
returns the bytes up to the occurrence of the first pattern in that order
that occurs at all (from the resume index); ties are decided by argument
order, not by earliest byte index or pattern length.  `read_line` passes
`("\r\n", "\r", "\n")`, so `"\r\n"` still beats `"\r"` at the same index:
on `"a\r\nb"` it returns `"a"` and consumes the `"\r\n"` pair. -/
theorem C3_first_pattern_order :
    (∀ (pats : List (List Nat)) (s : BufT) (fuel : Nat) (pat : List Nat) (ind : Nat),
      findFirst pats s.rbuf 0 = some (pat, ind) →
      readUntil pats false false (fuel + 1) s =
        some (.ok (s.rbuf.take ind), { s with rbuf := s.rbuf.drop (ind + pat.length) })) ∧
    readLine false 5 ⟨[97, 13, 10, 98], 16000, []⟩ =
      some (.ok [97], ⟨[98], 16000, []⟩) := by
  constructor
  · intro pats s fuel pat ind hff
    unfold readUntil
    rw [readUntilAux, hff]
    simp
  · decide

theorem C3_first_pattern_order_witness :
    readUntil [[98]] false false 1 ⟨[97, 98, 99], 16000, []⟩ =
      some (.ok [97], ⟨[99], 16000, []⟩) :=
  C3_first_pattern_order.1 [[98]] ⟨[97, 98, 99], 16000, []⟩ 0 [98] 1 (by decide)

/-- C4 counterexample: a `BoundTransport` with read quota 2 over a
buffered inner holding 4 bytes: `read(-1)` forwards a read-all to the
inner and returns 4 bytes, exceeding the quota (which goes negative). -/
theorem C4_counterexample :
    boundRead (-1) ⟨some 2, ⟨[], 16000, [.chunk [1, 2, 3, 4]]⟩⟩ =
      some ([1, 2, 3, 4], ⟨some (-2), ⟨[], 16000, []⟩⟩) ∧
    2 < ([1, 2, 3, 4] : List Nat).length := by decide

/-- C4 (amended): over any sequence of reads with nonnegative counts and
skips with arbitrary counts, a `BoundTransport` with finite nonnegative
read quota never lets the reader consume more than the quota; `read`
returns EOF once the remaining quota is nonpositive, and otherwise reads
at most `min(count, remaining)` bytes and decrements the counter by the
bytes actually read.  (A read with a negative count bypasses the quota:
it forwards read-all to the inner transport, as the counterexample
shows.) -/
theorem C4_quota :
    (∀ ops (b : BState) (r : Int) (n : Nat) (b' : BState),
      b.rlength = some r → 0 ≤ r → (∀ op ∈ ops, BOp.nonneg op) →
      runOps ops b = some (n, b') → (n : Int) ≤ r) ∧
    (∀ (b : BState) (r count : Int), b.rlength = some r → r ≤ 0 →
      boundRead count b = some ([], b)) ∧
    (∀ (b : BState) (r count : Int) (d : List Nat) (b' : BState),
      b.rlength = some r → 0 ≤ r → 0 ≤ count →
      boundRead count b = some (d, b') →
      (d.length : Int) ≤ min count r ∧ b'.rlength = some (r - (d.length : Int))) := by
  refine ⟨?_, ?_, ?_⟩
  · intro ops b r n b' hr hr0 hops hres
    exact (runOps_quota ops b r n b' hr hr0 hops hres).2
  · intro b r count hr h0
    unfold boundRead
    rw [hr]
    dsimp only
    rw [if_pos h0]
  · intro b r count d b' hr hr0 hc hres
    obtain ⟨hq1, hq2, hq3⟩ := boundRead_quota hr hr0 hc hres
    exact ⟨le_min hq3 hq2, hq1⟩

theorem C4_quota_witness :
    boundRead 5 ⟨some 0, ⟨[], 16000, []⟩⟩ = some ([], ⟨some 0, ⟨[], 16000, []⟩⟩) :=
  C4_quota.2.1 ⟨some 0, ⟨[], 16000, []⟩⟩ 0 5 rfl (by decide)

/-- C5: `read_exactly(n, raise_on_eof=true)` on a stream holding at least
`n` bytes returns exactly the first `n` bytes and leaves the stream
positioned at byte `n`; when the stream ends short of `n`, it raises an
end-of-stream error carrying the bytes read so far (everything the stream
held). -/
theorem C5_read_exactly (s : BufT) (n : Nat) (hw : wfB s) :
    (n ≤ (avail s).length →
      (readExactly n true s).1 = .ok ((avail s).take n) ∧
      avail (readExactly n true s).2 = (avail s).drop n) ∧
    ((avail s).length < n →
      (readExactly n true s).1 = .error (avail s) ∧
      avail (readExactly n true s).2 = []) := by
  obtain ⟨h1, h2⟩ := readExactly_spec n hw
  exact ⟨fun h => ⟨(h1 h).1, (h1 h).2.1⟩, fun h => ⟨(h2 h).1, (h2 h).2.1⟩⟩

theorem C5_read_exactly_witness :
    ((readExactly 2 true ⟨[], 16000, [.chunk [7, 8, 9]]⟩).1 =
      .ok ((avail ⟨[], 16000, [.chunk [7, 8, 9]]⟩).take 2) ∧
    avail (readExactly 2 true ⟨[], 16000, [.chunk [7, 8, 9]]⟩).2 =
      (avail ⟨[], 16000, [.chunk [7, 8, 9]]⟩).drop 2) :=
  (C5_read_exactly ⟨[], 16000, [.chunk [7, 8, 9]]⟩ 2 (by decide)).1 (by decide)

/-- C6 counterexample: a `BufferedTransport` read over an inner transport
that raises `TransportClosed` returns the buffered byte successfully
(`some`, the EOF path) instead of propagating the closed-transport error
(`none`): `_fill_rbuf` catches the exception and treats it as EOF. -/
theorem C6_counterexample :
    bread 5 ⟨[97], 16000, [.closed]⟩ = some ([97], ⟨[], 16000, [.closed]⟩) ∧
    bread 5 ⟨[97], 16000, [.closed]⟩ ≠ none := by decide

/-- C6 (amended): when the inner transport raises `TransportClosed`, a
`BufferedTransport.read` with nonnegative count catches it during the
buffer fill and treats it as EOF, returning the buffered bytes (possibly
none) as a successful result; only `read(count < 0)`, i.e. `read_all`,
propagates the closed-transport error. -/
theorem C6_closed_as_eof :
    ∀ (count : Nat) (s : BufT) (rest : List RawEvent),
      s.inner = .closed :: rest →
      bread (count : Int) s =
        some (s.rbuf.take count, { s with rbuf := s.rbuf.drop count }) ∧
      bread (-1) s = none := by
  intro count s rest hin
  have hfill : ∀ c : Int, (fillRbuf c s).2 = s := by
    intro c
    unfold fillRbuf
    by_cases h0 : c ≤ 0
    · rw [if_pos h0]
    · rw [if_neg h0]
      have hraw : rawRead c s.inner = (none, s.inner) := by
        rw [hin]
        rfl
      rw [hraw]
  constructor
  · rw [bread_pos_some (by omega)]
    have hcn : ((count : Int)).toNat = count := by omega
    rw [hcn]
    have hbp : breadPos count s =
        (s.rbuf.take count, { s with rbuf := s.rbuf.drop count }) := by
      unfold breadPos
      by_cases hlt : s.rbuf.length < count
      · rw [if_pos hlt, hfill]
      · rw [if_neg hlt]
    rw [hbp]
  · unfold bread
    rw [if_pos (by omega : (-1 : Int) < 0)]
    unfold breadAll
    rw [hin]
    rfl

theorem C6_closed_as_eof_witness :
    bread 3 ⟨[1, 2], 16000, [.closed]⟩ = some ([1, 2], ⟨[], 16000, [.closed]⟩) ∧
    bread (-1) ⟨[1, 2], 16000, [.closed]⟩ = none :=
  C6_closed_as_eof 3 ⟨[1, 2], 16000, [.closed]⟩ [] rfl

/-- C7: `recv` reads exactly the 4 header bytes and decodes the length
`L`; it raises `PacketTooLong` if and only if `max_length` is positive
and `L` exceeds it, with no body byte consumed yet; otherwise it reads
exactly the `L` body bytes and returns them, leaving the rest of the
stream in place. -/
theorem C7_recv (maxLen : Int) (L : Nat) (body rest : List Nat) (s : BufT)
    (hw : wfB s) (hL : L < 4294967296) (hb : body.length = L)
    (ha : avail s = beBytes L ++ (body ++ rest)) :
    ((precv maxLen s).1 = .error .packetTooLong ↔
      (0 < maxLen ∧ maxLen < (L : Int))) ∧
    ((0 < maxLen ∧ maxLen < (L : Int)) → avail (precv maxLen s).2 = body ++ rest) ∧
    (¬(0 < maxLen ∧ maxLen < (L : Int)) →
      (precv maxLen s).1 = .ok body ∧ avail (precv maxLen s).2 = rest) := by
  obtain ⟨htl, hok⟩ := precv_spec hw hL hb ha
  refine ⟨⟨?_, fun h => (htl h).1⟩, fun h => (htl h).2, hok⟩
  intro herr
  by_contra hcond
  have hk := (hok hcond).1
  rw [hk] at herr
  exact Except.noConfusion herr

theorem C7_recv_witness :
    (precv 4 (mkReader (beBytes 5 ++ [1, 2, 3, 4, 5]))).1 = .error .packetTooLong :=
  ((C7_recv 4 5 [1, 2, 3, 4, 5] [] (mkReader (beBytes 5 ++ [1, 2, 3, 4, 5]))
    (by decide) (by decide) (by decide) (by decide)).1).mpr (by decide)

/-- C8: `FilesSubsystem.open` computes the writable capability from
`'a' in mode or '+' in mode` only — the mode `"w"` yields a transport
with no writable (and no readable) capability, contradicting the claim
that `'w'` implies writable. -/
theorem C8_open_mode_eval :
    openWritable ['w'] = false ∧ openReadable ['w'] = false ∧
    (∀ mode : List Char,
      openWritable mode = (mode.contains 'a' || mode.contains '+')) := by
  refine ⟨by decide, by decide, ?_⟩
  intro mode
  by_cases hr : (mode.contains 'r' || mode.contains '+') = true <;>
    by_cases ha : (mode.contains 'a' || mode.contains '+') = true <;>
      simp [openWritable, openMode2, hr, ha]

/-- C9: at EOF the inner read yields the empty byte string, not `None`,
so `CodecTransport.read` takes the non-final decode branch: with a
pending partial multibyte sequence held in the decoder, the EOF read
returns nothing and leaves the pending bytes unflushed, while the
finalizing branch the claim describes (`creadBody` at `none`) would
flush them. -/
theorem C9_codec_eof_eval :
    cread 5 ⟨⟨[], 16000, []⟩, ⟨[200]⟩⟩ = ([], ⟨⟨[], 16000, []⟩, ⟨[200]⟩⟩) ∧
    creadBody ⟨[200]⟩ none = ([200], ⟨[]⟩) ∧
    (cread 5 ⟨⟨[], 16000, []⟩, ⟨[200]⟩⟩).1 ≠ (creadBody ⟨[200]⟩ none).1 := by decide

/-- C10: registering the same transport object again for the same fd and
direction succeeds and leaves the map unchanged; a `ReactorError` is
raised exactly when the fd slot is occupied by a different transport
object. -/
theorem C10_register (m : RMap) (fd tid : Nat) :
    (m fd = some tid →
      registerRead m fd tid = .ok m ∧ registerWrite m fd tid = .ok m) ∧
    ((∃ e, registerRead m fd tid = .error e) ↔
      ∃ tid2, m fd = some tid2 ∧ tid2 ≠ tid) ∧
    ((∃ e, registerWrite m fd tid = .error e) ↔
      ∃ tid2, m fd = some tid2 ∧ tid2 ≠ tid) := by
  have hrw : registerWrite = registerRead := rfl
  have herr : (∃ e, registerRead m fd tid = .error e) ↔
      ∃ tid2, m fd = some tid2 ∧ tid2 ≠ tid := by
    constructor
    · rintro ⟨e, he⟩
      unfold registerRead at he
      by_cases hcond : (m fd).isSome ∧ m fd ≠ some tid
      · obtain ⟨t2, ht2⟩ := Option.isSome_iff_exists.mp hcond.1
        refine ⟨t2, ht2, fun heq => hcond.2 ?_⟩
        rw [ht2, heq]
      · rw [if_neg hcond] at he
        exact Except.noConfusion he
    · rintro ⟨t2, ht2, hne⟩
      have hcond : (m fd).isSome ∧ m fd ≠ some tid := by
        refine ⟨by simp [ht2], ?_⟩
        rw [ht2]
        simpa using hne
      refine ⟨(), ?_⟩
      unfold registerRead
      rw [if_pos hcond]
  refine ⟨?_, herr, by rw [hrw]; exact herr⟩
  intro hm
  have hcond : ¬((m fd).isSome ∧ m fd ≠ some tid) := by
    simp [hm]
  have hupd : (fun x => if x = fd then some tid else m x) = m := by
    funext x
    by_cases hx : x = fd
    · rw [hx, if_pos rfl, hm]
    · rw [if_neg hx]
  constructor
  · unfold registerRead
    rw [if_neg hcond, hupd]
  · rw [hrw]
    unfold registerRead
    rw [if_neg hcond, hupd]

theorem C10_register_witness :
    registerRead (fun x => if x = 3 then some 7 else none) 3 7 =
      .ok (fun x => if x = 3 then some 7 else none) ∧
    registerWrite (fun x => if x = 3 then some 7 else none) 3 7 =
      .ok (fun x => if x = 3 then some 7 else none) :=
  (C10_register (fun x => if x = 3 then some 7 else none) 3 7).1 rfl
